import Mathlib

/-!
Verification of the MTA ridership preprocessing notebook
(`src/Preprocessing/Data_Preprocessing.ipynb`).

The notebook's algorithmic core is:

* `winsorize_outliers(df, limits=(0.05, 0.05))`: for every column of dtype
  `float64`/`int64` (the `Date` column is `datetime64` and therefore skipped),
  it reassigns `df[column] = scipy.stats.mstats.winsorize(df[column], limits=limits)`.
* four boolean date-window masks `(df['Date'] >= start) & (df['Date'] < end)`
  producing four partitions `df[mask]`, each winsorized independently,
  then `pd.concat([...], ignore_index=True)`.

We model a cell of a numeric column as `Option ℚ` (`none` is a missing value,
pandas `NaN`), a timestamp as `ℤ`, and a data frame as a `Table` below.

`scipy.stats.mstats.winsorize` (with its defaults `inclusive=(True, True)`,
`inplace=False`, `axis=None`, `nan_policy='propagate'`), as called by the
notebook, performs, for `a` the column converted to a (mask-free) masked
array and `(lo, hi)` the limits:

1. validates that each limit lies in `[0, 1]`, raising `ValueError` otherwise
   (there is no check on the *sum* of the limits);
2. `n = a.count()` (the full length: with no mask every entry, `NaN` included,
   is counted) and `idx = a.argsort()`; `NaN` sorts after every number;
3. if `lo` is nonzero (Python truthiness): `lowidx = int(lo * n)` and
   `a[idx[:lowidx]] = a[idx[lowidx]]` (an out-of-range read raises
   `IndexError`, e.g. on an empty column);
4. unconditionally (the upper limit is not `None` here): `upidx = n - int(hi * n)`
   and `a[idx[upidx:]] = a[idx[upidx - 1]]`, the fence being read *after*
   step 3's assignment, with Python's negative-index wrap-around for `-1`.

`argsort` tie-breaking does not affect the resulting values (entries moved
across a tie boundary are overwritten with their own value), so we embed
`argsort` as a stable sort of the indexed entries.  Python's `int` truncation
equals `Int.floor` here because the limits have been validated nonnegative.
The tail fractions are modelled as exact rationals; for the limits the
notebook uses and any realistic column length the float and rational cut
indices coincide.
-/

deriving instance DecidableEq for Except

namespace MTA

/-- Comparison used by `argsort` on a numeric pandas column: rationals are
ordered as usual and a missing value (`NaN`) sorts after every number. -/
def vle : Option ℚ → Option ℚ → Bool
  | _, none => true
  | none, some _ => false
  | some a, some b => decide (a ≤ b)

/-- `vle` as a relation, for use with `List.insertionSort`. -/
def vr (x y : Option ℚ) : Prop := vle x y = true

instance : DecidableRel vr := fun x y => decEq (vle x y) true

theorem vle_refl (x : Option ℚ) : vle x x = true := by
  cases x <;> simp [vle]

theorem vle_total (x y : Option ℚ) : vle x y = true ∨ vle y x = true := by
  cases x <;> cases y <;> simp [vle]
  exact le_total _ _

theorem vle_trans (x y z : Option ℚ) (h1 : vle x y = true) (h2 : vle y z = true) :
    vle x z = true := by
  cases x <;> cases y <;> cases z <;> simp_all [vle]
  exact le_trans h1 h2

theorem vle_antisymm (x y : Option ℚ) (h1 : vle x y = true) (h2 : vle y x = true) :
    x = y := by
  cases x <;> cases y <;> simp_all [vle]
  exact le_antisymm h1 h2

instance : IsTotal (Option ℚ) vr := ⟨vle_total⟩

instance : IsTrans (Option ℚ) vr := ⟨vle_trans⟩

instance : IsAntisymm (Option ℚ) vr := ⟨vle_antisymm⟩

instance : IsRefl (Option ℚ) vr := ⟨vle_refl⟩

/-- The comparison on `(position, value)` pairs used to model `argsort`:
pairs are compared by value only. -/
def pairR (p q : ℕ × Option ℚ) : Prop := vle p.2 q.2 = true

instance : DecidableRel pairR := fun p q => decEq (vle p.2 q.2) true

instance : IsTotal (ℕ × Option ℚ) pairR := ⟨fun p q => vle_total p.2 q.2⟩

instance : IsTrans (ℕ × Option ℚ) pairR := ⟨fun p q s h1 h2 => vle_trans p.2 q.2 s.2 h1 h2⟩

/-- The column's values in `argsort` order (numbers ascending, `NaN` last). -/
def sortVals (xs : List (Option ℚ)) : List (Option ℚ) := List.insertionSort vr xs

/-- `a.argsort()`: the positions of the column's entries, listed so that the
corresponding values are ascending (`NaN` last).  Embedded as a stable sort of
the indexed entries; see the module comment for why tie-breaking is
irrelevant to the winsorized values. -/
def argsortVals (xs : List (Option ℚ)) : List ℕ :=
  (List.insertionSort pairR xs.enum).map Prod.fst

/-- Python/numpy element read `xs[i]`: a negative index wraps around once;
out-of-range raises `IndexError`. -/
def pyGet {α : Type} (xs : List α) (i : ℤ) : Except String α :=
  let j : ℤ := if i < 0 then i + xs.length else i
  if j < 0 then .error "IndexError" else
    match xs.get? j.toNat with
    | some v => .ok v
    | none => .error "IndexError"

/-- `int(lo * n)` computed inside `scipy.stats.mstats.winsorize` for the
lower tail (the limits have been validated nonnegative, so truncation is
flooring). -/
def lowCut (lo : ℚ) (n : ℕ) : ℕ := (lo * (n : ℚ)).floor.toNat

/-- `upidx = n - int(hi * n)` computed inside `scipy.stats.mstats.winsorize`
for the upper tail. -/
def highCut (hi : ℚ) (n : ℕ) : ℕ := n - (hi * (n : ℚ)).floor.toNat

/-- `scipy.stats.mstats.winsorize(a, limits=(lo, hi))` on one numeric column,
with the notebook's defaults (`inclusive=(True, True)`, `nan_policy='propagate'`);
see the module comment for the step-by-step correspondence with scipy's
`_winsorize1D`. -/
def winsorize1D (lo hi : ℚ) (xs : List (Option ℚ)) : Except String (List (Option ℚ)) :=
  if lo < 0 ∨ 1 < lo then .error "ValueError: lower limit out of range" else
  if hi < 0 ∨ 1 < hi then .error "ValueError: upper limit out of range" else
  let n := xs.length
  let idx := argsortVals xs
  let step1 : Except String (List (Option ℚ)) :=
    if lo ≠ 0 then
      let lowidx := lowCut lo n
      match pyGet idx (lowidx : ℤ) with
      | .error e => .error e
      | .ok j =>
        match pyGet xs (j : ℤ) with
        | .error e => .error e
        | .ok fence => .ok ((idx.take lowidx).foldl (fun a k => a.set k fence) xs)
    else .ok xs
  match step1 with
  | .error e => .error e
  | .ok a1 =>
    let upidx : ℤ := (n : ℤ) - (hi * (n : ℚ)).floor
    match pyGet idx (upidx - 1) with
    | .error e => .error e
    | .ok j2 =>
      match pyGet a1 (j2 : ℤ) with
      | .error e => .error e
      | .ok fence2 => .ok ((idx.drop upidx.toNat).foldl (fun a k => a.set k fence2) a1)

/-- The lower clip bound `winsorize1D` uses: the order statistic of the
column (missing values sorting last) at position `int(lo * n)`. -/
def clipLoB (lo : ℚ) (xs : List (Option ℚ)) : Option ℚ :=
  (sortVals xs).getD (lowCut lo xs.length) none

/-- The upper clip bound `winsorize1D` uses: the order statistic of the
column (missing values sorting last) at position `n - int(hi * n) - 1`. -/
def clipHiB (hi : ℚ) (xs : List (Option ℚ)) : Option ℚ :=
  (sortVals xs).getD (highCut hi xs.length - 1) none

/-- Larger of two cells in the `vle` order (missing counts as largest). -/
def vmax (x y : Option ℚ) : Option ℚ := if vle x y then y else x

/-- Smaller of two cells in the `vle` order (missing counts as largest). -/
def vmin (x y : Option ℚ) : Option ℚ := if vle x y then x else y

/-- Clamp of one cell between the two clip bounds, in the `vle` order. -/
def clampV (lo hi x : Option ℚ) : Option ℚ := vmin (vmax x lo) hi

/-- A pandas data frame as the notebook uses it: a `Date` column of
timestamps (order-embedded into `ℤ`) plus named numeric columns.  Rows are
positional: entry `p` of every column belongs to row `p`. -/
structure Table where
  dates : List ℤ
  cols : List (String × List (Option ℚ))
deriving DecidableEq

/-- The per-column loop of `winsorize_outliers`: each numeric column is
winsorized independently; the first scipy error aborts (columns are
independent, so order is immaterial). -/
def winsorizeCols (lo hi : ℚ) : List (String × List (Option ℚ)) →
    Except String (List (String × List (Option ℚ)))
  | [] => .ok []
  | c :: cs =>
    match winsorize1D lo hi c.2 with
    | .error e => .error e
    | .ok w =>
      match winsorizeCols lo hi cs with
      | .error e => .error e
      | .ok rest => .ok ((c.1, w) :: rest)

/-- `winsorize_outliers(df, limits)` from the notebook: every `float64`/`int64`
column is winsorized in place; the `Date` column is `datetime64` and is not
selected by `select_dtypes`, hence untouched. -/
def winsorize_outliers (lo hi : ℚ) (t : Table) : Except String Table :=
  match winsorizeCols lo hi t.cols with
  | .error e => .error e
  | .ok cs => .ok ⟨t.dates, cs⟩

/-- The boolean date mask `(df['Date'] >= start) & (df['Date'] < end)`. -/
def datePred (s e d : ℤ) : Bool := decide (s ≤ d) && decide (d < e)

/-- pandas boolean-mask row selection `df[mask]`: keeps, in order, the rows
whose mask entry is `true`. -/
def maskFilter {α : Type} : List Bool → List α → List α
  | true :: ms, x :: xs => x :: maskFilter ms xs
  | false :: ms, _ :: xs => maskFilter ms xs
  | _, _ => []

/-- One date-window partition `df[(df['Date'] >= s) & (df['Date'] < e)]`:
the same mask, computed from the `Date` column, filters every column. -/
def window (s e : ℤ) (t : Table) : Table :=
  let mask := t.dates.map (datePred s e)
  ⟨maskFilter mask t.dates, t.cols.map (fun c => (c.1, maskFilter mask c.2))⟩

/-- Row-wise concatenation of two frames sharing the same column names, as
`pd.concat` does for the four partitions. -/
def appendTables (t1 t2 : Table) : Table :=
  ⟨t1.dates ++ t2.dates, List.zipWith (fun c1 c2 => (c1.1, c1.2 ++ c2.2)) t1.cols t2.cols⟩

/-- `pd.concat(parts, ignore_index=True)` for partitions sharing the same
column names (they are all windows of one frame). -/
def concatTables : List Table → Table
  | [] => ⟨[], []⟩
  | [t] => t
  | t :: ts => appendTables t (concatTables ts)

/-- The per-window loop of the notebook: winsorize each date-window
partition of `t` independently. -/
def clipParts (lo hi : ℚ) (t : Table) : List (ℤ × ℤ) → Except String (List Table)
  | [] => .ok []
  | b :: bs =>
    match winsorize_outliers lo hi (window b.1 b.2 t) with
    | .error e => .error e
    | .ok p =>
      match clipParts lo hi t bs with
      | .error e => .error e
      | .ok ps => .ok (p :: ps)

/-- The notebook's whole pipeline (cells 15-17), with the four hardcoded
windows generalized to an ordered list of `(start, end)` boundary pairs:
partition by date windows, winsorize each partition, concatenate in the
order the windows were given. -/
def segmentAndClip (lo hi : ℚ) (bs : List (ℤ × ℤ)) (t : Table) : Except String Table :=
  match clipParts lo hi t bs with
  | .error e => .error e
  | .ok ps => .ok (concatTables ps)

/-- The notebook's four lockdown-era windows, dates encoded as `yyyymmdd`
(an order-embedding of the calendar dates used). -/
def notebookBoundaries : List (ℤ × ℤ) :=
  [(20200301, 20200322), (20200322, 20210608), (20210608, 20210913), (20210913, 20241031)]

/-- The present (non-missing) values of a column, as the spec speaks of
them. -/
def presentVals (xs : List (Option ℚ)) : List ℚ := xs.filterMap id

/-- Follows the spec's words (§4.1), for comparison with the code: the
`p`-quantile of the sorted present values by linear interpolation between
order statistics, `h = p * (m - 1)`, `q = y_i + (h - i) * (y_one - y_i)`
with `i = floor h`. -/
def specQuantile (p : ℚ) (ys : List ℚ) : ℚ :=
  let m := ys.length
  let h := p * ((m : ℚ) - 1)
  let i := h.floor.toNat
  let y1 := ys.getD i 0
  let y2 := ys.getD (min (i + 1) (m - 1)) 0
  y1 + (h - (i : ℚ)) * (y2 - y1)

/-- Follows the spec's words (§4.1), for comparison with the code: compute
`qLo` as the `lowerFrac`-quantile and `qHi` as the `(1-upperFrac)`-quantile
of the present values by linear interpolation, then clip every present value
into `[qLo, qHi]`, leaving missing values untouched. -/
def specWinsorize (lo hi : ℚ) (xs : List (Option ℚ)) : List (Option ℚ) :=
  let ys := List.insertionSort (fun a b : ℚ => a ≤ b) (presentVals xs)
  let qLo := specQuantile lo ys
  let qHi := specQuantile (1 - hi) ys
  xs.map (fun x => x.map (fun v => if v < qLo then qLo else if qHi < v then qHi else v))

/-! ### Order and sorting facts -/

theorem sortVals_length (xs : List (Option ℚ)) : (sortVals xs).length = xs.length :=
  List.length_insertionSort vr xs

theorem sortVals_perm (xs : List (Option ℚ)) : List.Perm (sortVals xs) xs :=
  List.perm_insertionSort vr xs

theorem sortVals_sorted (xs : List (Option ℚ)) : (sortVals xs).Sorted vr :=
  List.sorted_insertionSort vr xs

theorem sorted_getD_mono {s : List (Option ℚ)} (hs : s.Sorted vr) {i j : ℕ}
    (hij : i ≤ j) (hj : j < s.length) :
    vle (s.getD i none) (s.getD j none) = true := by
  rcases Nat.eq_or_lt_of_le hij with h | h
  · subst h; exact vle_refl _
  · have hi : i < s.length := lt_trans h hj
    rw [List.getD_eq_getElem s none hi, List.getD_eq_getElem s none hj]
    have := (List.pairwise_iff_get.mp hs) ⟨i, hi⟩ ⟨j, hj⟩ h
    simpa [vr, List.get_eq_getElem] using this

theorem argsort_length (xs : List (Option ℚ)) : (argsortVals xs).length = xs.length := by
  simp [argsortVals, List.length_insertionSort, List.enum_length]

theorem argsort_perm_range (xs : List (Option ℚ)) :
    List.Perm (argsortVals xs) (List.range xs.length) := by
  have h := (List.perm_insertionSort pairR xs.enum).map Prod.fst
  rw [List.enum_map_fst] at h
  exact h

theorem argsort_nodup (xs : List (Option ℚ)) : (argsortVals xs).Nodup :=
  (argsort_perm_range xs).nodup_iff.mpr (List.nodup_range xs.length)

theorem mem_argsort_iff (xs : List (Option ℚ)) {j : ℕ} :
    j ∈ argsortVals xs ↔ j < xs.length := by
  rw [(argsort_perm_range xs).mem_iff, List.mem_range]

theorem argsort_map_getD (xs : List (Option ℚ)) :
    (argsortVals xs).map (fun j => xs.getD j none) = sortVals xs := by
  unfold argsortVals
  rw [List.map_map]
  have h1 : ∀ p ∈ List.insertionSort pairR xs.enum,
      ((fun j => xs.getD j none) ∘ Prod.fst) p = Prod.snd p := by
    intro p hp
    have hp2 : p ∈ xs.enum := (List.mem_insertionSort pairR).mp hp
    have h3 := List.mem_enum_iff_getElem?.mp hp2
    simp [List.getD_eq_getElem?_getD, h3]
  rw [List.map_congr_left h1]
  rw [List.map_insertionSort pairR vr Prod.snd xs.enum (fun a _ b _ => Iff.rfl)]
  rw [List.enum_map_snd]
  rfl

theorem argsort_getD_lt (xs : List (Option ℚ)) {k : ℕ} (hk : k < xs.length) :
    (argsortVals xs).getD k 0 < xs.length := by
  have hk2 : k < (argsortVals xs).length := by rw [argsort_length]; exact hk
  have : (argsortVals xs).getD k 0 ∈ argsortVals xs := by
    rw [List.getD_eq_getElem _ 0 hk2]
    exact List.getElem_mem hk2
  exact (mem_argsort_iff xs).mp this

theorem getD_argsort (xs : List (Option ℚ)) {k : ℕ} (hk : k < xs.length) :
    xs.getD ((argsortVals xs).getD k 0) none = (sortVals xs).getD k none := by
  have hk2 : k < (argsortVals xs).length := by rw [argsort_length]; exact hk
  have hk3 : k < ((argsortVals xs).map (fun j => xs.getD j none)).length := by
    rw [List.length_map]; exact hk2
  have := argsort_map_getD xs
  calc xs.getD ((argsortVals xs).getD k 0) none
      = ((argsortVals xs).map (fun j => xs.getD j none)).getD k (xs.getD 0 none) := by
        rw [List.getD_eq_getElem _ _ hk3, List.getElem_map, List.getD_eq_getElem _ _ hk2]
    _ = (sortVals xs).getD k none := by
        rw [this]
        rw [List.getD_eq_getElem _ _ (by rw [this] at hk3; exact hk3),
          List.getD_eq_getElem _ _ (by rw [sortVals_length]; exact hk)]

/-! ### Rank (argsort position) of an array position -/

theorem mem_take_iff_rank {α : Type} [DecidableEq α] {l : List α}
    {p : α} {k : ℕ} (hm : p ∈ l) :
    p ∈ l.take k ↔ List.indexOf p l < k := by
  constructor
  · intro h
    have := List.take_append_drop k l
    have h2 : List.indexOf p l = List.indexOf p (l.take k) := by
      conv_lhs => rw [← this]
      exact List.indexOf_append_of_mem h
    have h3 : List.indexOf p (l.take k) < (l.take k).length :=
      List.indexOf_lt_length.mpr h
    have h4 : (l.take k).length ≤ k := by
      rw [List.length_take]; exact min_le_left _ _
    omega
  · intro h
    have hi : List.indexOf p l < l.length := List.indexOf_lt_length.mpr hm
    have hik : List.indexOf p l < (l.take k).length := by
      rw [List.length_take]; exact lt_min h hi
    have : (l.take k)[List.indexOf p l] = p := by
      rw [List.getElem_take]; exact List.getElem_indexOf hi
    rw [← this]
    exact List.getElem_mem hik

theorem mem_drop_iff_rank {α : Type} [DecidableEq α] {l : List α} (hnd : l.Nodup)
    {p : α} {k : ℕ} (hm : p ∈ l) :
    p ∈ l.drop k ↔ k ≤ List.indexOf p l := by
  have hsplit := List.take_append_drop k l
  have hdisj : List.Disjoint (l.take k) (l.drop k) :=
    List.disjoint_of_nodup_append (by rw [hsplit]; exact hnd)
  have hor : p ∈ l.take k ∨ p ∈ l.drop k := by
    rw [← List.mem_append, hsplit]; exact hm
  constructor
  · intro h
    by_contra hlt
    exact hdisj ((mem_take_iff_rank hm).mpr (by omega)) h
  · intro h
    rcases hor with h1 | h1
    · exact absurd ((mem_take_iff_rank hm).mp h1) (by omega)
    · exact h1

/-! ### Set-fold (numpy fancy assignment) facts -/

theorem foldl_set_length {α : Type} (J : List ℕ) (v : α) (a : List α) :
    (J.foldl (fun b k => b.set k v) a).length = a.length := by
  induction J generalizing a with
  | nil => rfl
  | cons j J ih => rw [List.foldl_cons, ih, List.length_set]

theorem getD_set_char {α : Type} (a : List α) (j : ℕ) (v : α) (p : ℕ) (d : α)
    (hp : p < a.length) :
    (a.set j v).getD p d = if j = p then v else a.getD p d := by
  have hp2 : p < (a.set j v).length := by rw [List.length_set]; exact hp
  rw [List.getD_eq_getElem _ _ hp2, List.getElem_set, List.getD_eq_getElem _ _ hp]

theorem foldl_set_getD {α : Type} (J : List ℕ) (v : α) (a : List α) (p : ℕ) (d : α)
    (hp : p < a.length) :
    (J.foldl (fun b k => b.set k v) a).getD p d = if p ∈ J then v else a.getD p d := by
  induction J generalizing a with
  | nil => simp
  | cons j J ih =>
    rw [List.foldl_cons, ih (a.set j v) (by rw [List.length_set]; exact hp)]
    rw [getD_set_char a j v p d hp]
    by_cases h1 : p ∈ J
    · simp [h1, List.mem_cons]
    · by_cases h2 : j = p
      · simp [h1, h2, List.mem_cons]
      · have h3 : ¬(p = j) := fun h => h2 h.symm
        simp [h1, h2, h3, List.mem_cons]

/-! ### Python indexing facts -/

theorem pyGet_natCast {α : Type} (xs : List α) (k : ℕ) (d : α) (h : k < xs.length) :
    pyGet xs (k : ℤ) = .ok (xs.getD k d) := by
  unfold pyGet
  have h1 : ¬((k : ℤ) < 0) := by omega
  rw [if_neg h1]
  simp only [h1, if_false]
  have h2 : (k : ℤ).toNat = k := Int.toNat_natCast k
  rw [h2]
  have h3 : xs.get? k = some (xs.getD k d) := by
    rw [List.getD_eq_getElem _ _ h, List.get?_eq_getElem?, List.getElem?_eq_getElem h]
  rw [h3]

theorem indexOf_getD_of_nodup {α : Type} [DecidableEq α] {l : List α} (h : l.Nodup)
    {k : ℕ} (hk : k < l.length) (d : α) :
    List.indexOf (l.getD k d) l = k := by
  rw [List.getD_eq_getElem _ _ hk]
  have hm : l[k] ∈ l := List.getElem_mem hk
  have hi : List.indexOf l[k] l < l.length := List.indexOf_lt_length.mpr hm
  have he : l[List.indexOf l[k] l] = l[k] := List.getElem_indexOf hi
  exact List.Nodup.getElem_inj_iff h |>.mp he

/-! ### Arithmetic on the cut indices -/

theorem cuts_lt {lo hi : ℚ} {n : ℕ} (h0 : 0 ≤ lo) (h1 : 0 ≤ hi) (hs : lo + hi < 1)
    (hn : 0 < n) : lowCut lo n + (hi * (n : ℚ)).floor.toNat < n := by
  have hnq : (0 : ℚ) < (n : ℚ) := by exact_mod_cast hn
  have ha : (0 : ℤ) ≤ (lo * (n : ℚ)).floor := Int.floor_nonneg.mpr (mul_nonneg h0 hnq.le)
  have hb : (0 : ℤ) ≤ (hi * (n : ℚ)).floor := Int.floor_nonneg.mpr (mul_nonneg h1 hnq.le)
  have hab : (lo * (n : ℚ)).floor + (hi * (n : ℚ)).floor < (n : ℤ) := by
    have h2 : ((lo * (n : ℚ)).floor : ℚ) + ((hi * (n : ℚ)).floor : ℚ) ≤ lo * n + hi * n :=
      add_le_add (Int.floor_le _) (Int.floor_le _)
    have h3 : lo * (n : ℚ) + hi * (n : ℚ) < (n : ℚ) := by
      have := mul_lt_mul_of_pos_right hs hnq
      rw [one_mul] at this
      linarith [this]
    have h4 : ((lo * (n : ℚ)).floor : ℚ) + ((hi * (n : ℚ)).floor : ℚ) < (n : ℚ) :=
      lt_of_le_of_lt h2 h3
    exact_mod_cast h4
  unfold lowCut
  omega

/-! ### Clamp algebra in the `vle` order -/

theorem clampV_of_le_lo {a b x : Option ℚ} (hab : vle a b = true) (hx : vle x a = true) :
    clampV a b x = a := by
  unfold clampV vmax vmin
  rw [if_pos hx, if_pos hab]

theorem clampV_of_between {a b x : Option ℚ} (ha : vle a x = true) (hb : vle x b = true) :
    clampV a b x = x := by
  unfold clampV vmax vmin
  by_cases h : vle x a = true
  · have hxa : x = a := vle_antisymm x a h ha
    rw [if_pos h]
    subst hxa
    rw [if_pos hb]
  · rw [if_neg h, if_pos hb]

theorem clampV_of_hi_le {a b x : Option ℚ} (hab : vle a b = true) (hx : vle b x = true) :
    clampV a b x = b := by
  unfold clampV vmax vmin
  by_cases h : vle x a = true
  · have hax : vle a x = true := vle_trans a b x hab hx
    have hxa : x = a := vle_antisymm x a h hax
    have hba : vle b a = true := hxa ▸ hx
    have hba2 : a = b := vle_antisymm a b hab hba
    rw [if_pos h, if_pos hab]
    exact hba2
  · rw [if_neg h]
    by_cases h2 : vle x b = true
    · have := vle_antisymm x b h2 hx
      rw [if_pos h2]
      exact this
    · rw [if_neg h2]

/-! ### The two fancy assignments amount to a pointwise clamp -/

theorem fold_clip_eq_map_clamp (lo hi : ℚ) (xs : List (Option ℚ))
    (h0 : 0 ≤ lo) (h1 : 0 ≤ hi) (hs : lo + hi < 1) (hne : xs ≠ []) :
    ((argsortVals xs).drop (xs.length - (hi * (xs.length : ℚ)).floor.toNat)).foldl
        (fun a k => a.set k
          ((sortVals xs).getD (xs.length - (hi * (xs.length : ℚ)).floor.toNat - 1) none))
        (((argsortVals xs).take (lowCut lo xs.length)).foldl
          (fun a k => a.set k ((sortVals xs).getD (lowCut lo xs.length) none)) xs)
    = xs.map (clampV (clipLoB lo xs) (clipHiB hi xs)) := by
  have hn : 0 < xs.length := List.length_pos.mpr hne
  have hLF : lowCut lo xs.length + (hi * (xs.length : ℚ)).floor.toNat < xs.length :=
    cuts_lt h0 h1 hs hn
  have hslen : (sortVals xs).length = xs.length := sortVals_length xs
  have hidxlen : (argsortVals xs).length = xs.length := argsort_length xs
  have hnd : (argsortVals xs).Nodup := argsort_nodup xs
  have hclo : clipLoB lo xs = (sortVals xs).getD (lowCut lo xs.length) none := rfl
  have hchi : clipHiB hi xs
      = (sortVals xs).getD (xs.length - (hi * (xs.length : ℚ)).floor.toNat - 1) none := rfl
  have hqq : vle ((sortVals xs).getD (lowCut lo xs.length) none)
      ((sortVals xs).getD (xs.length - (hi * (xs.length : ℚ)).floor.toNat - 1) none) = true :=
    sorted_getD_mono (sortVals_sorted xs) (by omega) (by rw [hslen]; omega)
  have hlen1 : (((argsortVals xs).take (lowCut lo xs.length)).foldl
      (fun a k => a.set k ((sortVals xs).getD (lowCut lo xs.length) none)) xs).length
      = xs.length := foldl_set_length _ _ _
  apply List.ext_getElem
  · rw [foldl_set_length, hlen1, List.length_map]
  · intro p hp1 hp2
    have hpn : p < xs.length := by
      rw [List.length_map] at hp2
      exact hp2
    have hpmem : p ∈ argsortVals xs := (mem_argsort_iff xs).mpr hpn
    have hkn : List.indexOf p (argsortVals xs) < xs.length := by
      rw [← hidxlen]
      exact List.indexOf_lt_length.mpr hpmem
    have hidxk : (argsortVals xs).getD (List.indexOf p (argsortVals xs)) 0 = p := by
      rw [List.getD_eq_getElem _ _ (by rw [hidxlen]; exact hkn)]
      exact List.getElem_indexOf (by rw [hidxlen]; exact hkn)
    have hxsp : xs.getD p none
        = (sortVals xs).getD (List.indexOf p (argsortVals xs)) none := by
      conv_lhs => rw [← hidxk]
      exact getD_argsort xs hkn
    rw [← List.getD_eq_getElem _ none hp1, ← List.getD_eq_getElem _ none hp2]
    rw [foldl_set_getD _ _ _ _ _ (by rw [hlen1]; exact hpn)]
    rw [foldl_set_getD _ _ _ _ _ hpn]
    have hrhs : (xs.map (clampV (clipLoB lo xs) (clipHiB hi xs))).getD p none
        = clampV (clipLoB lo xs) (clipHiB hi xs) (xs.getD p none) := by
      rw [List.getD_eq_getElem _ none (by rw [List.length_map]; exact hpn),
        List.getElem_map, List.getD_eq_getElem _ none hpn]
    rw [hrhs, hclo, hchi]
    have hmemtake : p ∈ (argsortVals xs).take (lowCut lo xs.length)
        ↔ List.indexOf p (argsortVals xs) < lowCut lo xs.length :=
      mem_take_iff_rank hpmem
    have hmemdrop : p ∈ (argsortVals xs).drop
          (xs.length - (hi * (xs.length : ℚ)).floor.toNat)
        ↔ xs.length - (hi * (xs.length : ℚ)).floor.toNat
            ≤ List.indexOf p (argsortVals xs) :=
      mem_drop_iff_rank hnd hpmem
    by_cases hk1 : xs.length - (hi * (xs.length : ℚ)).floor.toNat
        ≤ List.indexOf p (argsortVals xs)
    · rw [if_pos (hmemdrop.mpr hk1), hxsp]
      exact (clampV_of_hi_le hqq
        (sorted_getD_mono (sortVals_sorted xs) (by omega) (by rw [hslen]; omega))).symm
    · by_cases hk2 : List.indexOf p (argsortVals xs) < lowCut lo xs.length
      · rw [if_neg (fun hmem => absurd (hmemdrop.mp hmem) hk1),
          if_pos (hmemtake.mpr hk2), hxsp]
        exact (clampV_of_le_lo hqq
          (sorted_getD_mono (sortVals_sorted xs) (by omega) (by rw [hslen]; omega))).symm
      · rw [if_neg (fun hmem => absurd (hmemdrop.mp hmem) hk1),
          if_neg (fun hmem => absurd (hmemtake.mp hmem) hk2), hxsp]
        exact (clampV_of_between
          (sorted_getD_mono (sortVals_sorted xs) (by omega) (by rw [hslen]; omega))
          (sorted_getD_mono (sortVals_sorted xs) (by omega) (by rw [hslen]; omega))).symm

/-- Key characterization of the embedded scipy winsorization: on a nonempty
column, with validated fractions whose sum is below one, it succeeds and
clamps every entry (missing treated as largest) between the two order
statistics `clipLoB` and `clipHiB`. -/
theorem winsorize1D_ok_clamp (lo hi : ℚ) (xs : List (Option ℚ))
    (h0 : 0 ≤ lo) (h1 : 0 ≤ hi) (hs : lo + hi < 1) (hne : xs ≠ []) :
    winsorize1D lo hi xs = .ok (xs.map (clampV (clipLoB lo xs) (clipHiB hi xs))) := by
  have hn : 0 < xs.length := List.length_pos.mpr hne
  have hLF : lowCut lo xs.length + (hi * (xs.length : ℚ)).floor.toNat < xs.length :=
    cuts_lt h0 h1 hs hn
  have hidxlen : (argsortVals xs).length = xs.length := argsort_length xs
  have hnd : (argsortVals xs).Nodup := argsort_nodup xs
  have hv1 : ¬(lo < 0 ∨ 1 < lo) := by push_neg; constructor <;> linarith
  have hv2 : ¬(hi < 0 ∨ 1 < hi) := by push_neg; constructor <;> linarith
  have hfl : (0 : ℤ) ≤ (hi * (xs.length : ℚ)).floor :=
    Int.floor_nonneg.mpr (mul_nonneg h1 (by positivity))
  have hz1 : (xs.length : ℤ) - (hi * (xs.length : ℚ)).floor - 1
      = ((xs.length - (hi * (xs.length : ℚ)).floor.toNat - 1 : ℕ) : ℤ) := by omega
  have hz2 : ((xs.length : ℤ) - (hi * (xs.length : ℚ)).floor).toNat
      = xs.length - (hi * (xs.length : ℚ)).floor.toNat := by omega
  have hD : pyGet (argsortVals xs)
      ((xs.length - (hi * (xs.length : ℚ)).floor.toNat - 1 : ℕ) : ℤ)
      = .ok ((argsortVals xs).getD
          (xs.length - (hi * (xs.length : ℚ)).floor.toNat - 1) 0) :=
    pyGet_natCast _ _ 0 (by omega)
  have hj2lt : (argsortVals xs).getD
      (xs.length - (hi * (xs.length : ℚ)).floor.toNat - 1) 0 < xs.length :=
    argsort_getD_lt xs (by omega)
  have hj2rank : List.indexOf
      ((argsortVals xs).getD (xs.length - (hi * (xs.length : ℚ)).floor.toNat - 1) 0)
      (argsortVals xs)
      = xs.length - (hi * (xs.length : ℚ)).floor.toNat - 1 :=
    indexOf_getD_of_nodup hnd (by omega) 0
  have hj2s : xs.getD ((argsortVals xs).getD
        (xs.length - (hi * (xs.length : ℚ)).floor.toNat - 1) 0) none
      = (sortVals xs).getD (xs.length - (hi * (xs.length : ℚ)).floor.toNat - 1) none :=
    getD_argsort xs (by omega)
  simp only [winsorize1D]
  rw [if_neg hv1, if_neg hv2]
  by_cases hlo : lo = 0
  · -- the lower pass is skipped (Python truthiness of `0.0`)
    subst hlo
    have hL0 : lowCut 0 xs.length = 0 := by
      unfold lowCut
      rw [zero_mul]
      rfl
    rw [if_neg (not_not_intro rfl)]
    dsimp only
    rw [hz1, hD]
    dsimp only
    have hE : pyGet xs (((argsortVals xs).getD
          (xs.length - (hi * (xs.length : ℚ)).floor.toNat - 1) 0 : ℕ) : ℤ)
        = .ok ((sortVals xs).getD
            (xs.length - (hi * (xs.length : ℚ)).floor.toNat - 1) none) := by
      rw [pyGet_natCast xs _ none hj2lt, hj2s]
    rw [hE]
    dsimp only
    rw [hz2]
    have := fold_clip_eq_map_clamp 0 hi xs le_rfl h1 (by linarith) hne
    rw [hL0, List.take_zero, List.foldl_nil] at this
    rw [this]
  · rw [if_pos hlo]
    have hA : pyGet (argsortVals xs) ((lowCut lo xs.length : ℕ) : ℤ)
        = .ok ((argsortVals xs).getD (lowCut lo xs.length) 0) :=
      pyGet_natCast _ _ 0 (by omega)
    have hj1lt : (argsortVals xs).getD (lowCut lo xs.length) 0 < xs.length :=
      argsort_getD_lt xs (by omega)
    have hB : pyGet xs (((argsortVals xs).getD (lowCut lo xs.length) 0 : ℕ) : ℤ)
        = .ok ((sortVals xs).getD (lowCut lo xs.length) none) := by
      rw [pyGet_natCast xs _ none hj1lt]
      rw [getD_argsort xs (by omega)]
    rw [hA]
    dsimp only
    rw [hB]
    dsimp only
    have hlen1 : (((argsortVals xs).take (lowCut lo xs.length)).foldl
        (fun a k => a.set k ((sortVals xs).getD (lowCut lo xs.length) none)) xs).length
        = xs.length := foldl_set_length _ _ _
    rw [hz1, hD]
    dsimp only
    have hE : pyGet (((argsortVals xs).take (lowCut lo xs.length)).foldl
          (fun a k => a.set k ((sortVals xs).getD (lowCut lo xs.length) none)) xs)
          (((argsortVals xs).getD
            (xs.length - (hi * (xs.length : ℚ)).floor.toNat - 1) 0 : ℕ) : ℤ)
        = .ok ((sortVals xs).getD
            (xs.length - (hi * (xs.length : ℚ)).floor.toNat - 1) none) := by
      rw [pyGet_natCast _ _ none (by rw [hlen1]; exact hj2lt)]
      rw [foldl_set_getD _ _ _ _ _ hj2lt]
      rw [if_neg]
      · rw [hj2s]
      · intro hmem
        have := (mem_take_iff_rank ((mem_argsort_iff xs).mpr hj2lt)).mp hmem
        rw [hj2rank] at this
        omega
    rw [hE]
    dsimp only
    rw [hz2]
    rw [fold_clip_eq_map_clamp lo hi xs h0 h1 hs hne]

/-! ### Structural facts about `winsorize1D` -/

theorem pyGet_nil {α : Type} (i : ℤ) : pyGet ([] : List α) i = .error "IndexError" := by
  unfold pyGet
  by_cases h : i < 0 <;> simp [h]

theorem winsorize1D_ok_length {lo hi : ℚ} {xs ys : List (Option ℚ)}
    (h : winsorize1D lo hi xs = .ok ys) : ys.length = xs.length := by
  simp only [winsorize1D] at h
  split at h
  · exact absurd h (by simp)
  split at h
  · exact absurd h (by simp)
  split at h
  · exact absurd h (by simp)
  next a1 heq =>
    split at h
    · exact absurd h (by simp)
    split at h
    · exact absurd h (by simp)
    have hlen : ys.length = a1.length := by
      have h2 := Except.ok.inj h
      rw [← h2, foldl_set_length]
    split at heq
    · split at heq
      · exact absurd heq (by simp)
      split at heq
      · exact absurd heq (by simp)
      have h3 := Except.ok.inj heq
      rw [hlen, ← h3, foldl_set_length]
    · have h3 := Except.ok.inj heq
      rw [hlen, ← h3]

theorem winsorize1D_not_ok_nil {lo hi : ℚ} {ys : List (Option ℚ)}
    (h : winsorize1D lo hi [] = .ok ys) : False := by
  have ha : argsortVals ([] : List (Option ℚ)) = [] := rfl
  simp only [winsorize1D, ha, pyGet_nil] at h
  by_cases hlo : lo = 0
  · simp [hlo, pyGet_nil] at h
    split_ifs at h
  · simp [hlo, pyGet_nil] at h
    split_ifs at h

theorem winsorize1D_ok_ne_nil {lo hi : ℚ} {xs ys : List (Option ℚ)}
    (h : winsorize1D lo hi xs = .ok ys) : xs ≠ [] := by
  intro hx
  subst hx
  exact winsorize1D_not_ok_nil h

theorem winsorize1D_error_of_bad_limits {lo hi : ℚ} (xs : List (Option ℚ))
    (h : lo < 0 ∨ 1 < lo ∨ hi < 0 ∨ 1 < hi) :
    ∃ e, winsorize1D lo hi xs = .error e := by
  unfold winsorize1D
  by_cases h1 : lo < 0 ∨ 1 < lo
  · rw [if_pos h1]
    exact ⟨_, rfl⟩
  · rw [if_neg h1]
    have h2 : hi < 0 ∨ 1 < hi := by tauto
    rw [if_pos h2]
    exact ⟨_, rfl⟩

/-! ### More clamp algebra (bounds and idempotence) -/

theorem vle_clampV_right (a b x : Option ℚ) :
    vle (clampV a b x) b = true := by
  unfold clampV vmin
  by_cases h : vle (vmax x a) b = true
  · rw [if_pos h]
    exact h
  · rw [if_neg h]
    exact vle_refl b

theorem vle_clampV_left {a b x : Option ℚ} (hab : vle a b = true) :
    vle a (clampV a b x) = true := by
  have hva : vle a (vmax x a) = true := by
    unfold vmax
    by_cases h : vle x a = true
    · rw [if_pos h]
      exact vle_refl a
    · rw [if_neg h]
      rcases vle_total x a with h2 | h2
      · exact absurd h2 h
      · exact h2
  unfold clampV vmin
  by_cases h : vle (vmax x a) b = true
  · rw [if_pos h]
    exact hva
  · rw [if_neg h]
    exact hab

theorem clampV_idem {a b x : Option ℚ} (hab : vle a b = true) :
    clampV a b (clampV a b x) = clampV a b x :=
  clampV_of_between (vle_clampV_left hab) (vle_clampV_right a b x)

theorem clampV_mono {a b x y : Option ℚ} (hxy : vle x y = true) :
    vle (clampV a b x) (clampV a b y) = true := by
  have hmax : vle (vmax x a) (vmax y a) = true := by
    unfold vmax
    by_cases h1 : vle x a = true <;> by_cases h2 : vle y a = true <;>
      simp only [if_pos, if_neg, h1, h2, if_true, if_false]
    · exact vle_refl a
    · rcases vle_total a y with h3 | h3
      · exact h3
      · exact absurd (vle_trans y a a h3 (vle_refl a)) h2
    · exact vle_trans x y a hxy h2
    · exact hxy
  unfold clampV vmin
  by_cases h1 : vle (vmax x a) b = true <;> by_cases h2 : vle (vmax y a) b = true <;>
    simp only [if_pos, if_neg, h1, h2, if_true, if_false]
  · exact hmax
  · exact h1
  · exact absurd (vle_trans (vmax x a) (vmax y a) b hmax h2) (by exact fun hc => h1 hc)
  · exact vle_refl b

theorem clampV_fixed_lo {a b : Option ℚ} (hab : vle a b = true) : clampV a b a = a :=
  clampV_of_between (vle_refl a) hab

theorem clampV_fixed_hi {a b : Option ℚ} (hab : vle a b = true) : clampV a b b = b :=
  clampV_of_between hab (vle_refl b)

theorem clip_bounds_le (lo hi : ℚ) (xs : List (Option ℚ))
    (h0 : 0 ≤ lo) (h1 : 0 ≤ hi) (hs : lo + hi < 1) (hne : xs ≠ []) :
    vle (clipLoB lo xs) (clipHiB hi xs) = true := by
  have hn : 0 < xs.length := List.length_pos.mpr hne
  have hLF : lowCut lo xs.length + (hi * (xs.length : ℚ)).floor.toNat < xs.length :=
    cuts_lt h0 h1 hs hn
  have hslen : (sortVals xs).length = xs.length := sortVals_length xs
  unfold clipLoB clipHiB highCut
  exact sorted_getD_mono (sortVals_sorted xs) (by omega) (by rw [hslen]; omega)

/-! ### Winsorizing twice: sorting and bounds are stable -/

theorem sortVals_map_clamp (a b : Option ℚ) (xs : List (Option ℚ)) :
    sortVals (xs.map (clampV a b)) = (sortVals xs).map (clampV a b) := by
  apply List.eq_of_perm_of_sorted (r := vr)
  · exact (sortVals_perm _).trans ((sortVals_perm xs).symm.map _)
  · exact sortVals_sorted _
  · exact List.Pairwise.map _ (fun x y hxy => clampV_mono hxy) (sortVals_sorted xs)

theorem clipLoB_map (lo : ℚ) (a b : Option ℚ) (xs : List (Option ℚ))
    (hL : lowCut lo xs.length < xs.length) :
    clipLoB lo (xs.map (clampV a b)) = clampV a b (clipLoB lo xs) := by
  unfold clipLoB
  rw [sortVals_map_clamp, List.length_map]
  rw [List.getD_eq_getElem _ _ (by rw [List.length_map, sortVals_length]; exact hL),
    List.getElem_map, ← List.getD_eq_getElem (sortVals xs) none
      (by rw [sortVals_length]; exact hL)]

theorem clipHiB_map (hi : ℚ) (a b : Option ℚ) (xs : List (Option ℚ))
    (hU : highCut hi xs.length - 1 < xs.length) :
    clipHiB hi (xs.map (clampV a b)) = clampV a b (clipHiB hi xs) := by
  unfold clipHiB
  rw [sortVals_map_clamp, List.length_map]
  rw [List.getD_eq_getElem _ _ (by rw [List.length_map, sortVals_length]; exact hU),
    List.getElem_map, ← List.getD_eq_getElem (sortVals xs) none
      (by rw [sortVals_length]; exact hU)]

theorem clipLoB_map_clamp (lo hi : ℚ) (xs : List (Option ℚ))
    (h0 : 0 ≤ lo) (h1 : 0 ≤ hi) (hs : lo + hi < 1) (hne : xs ≠ []) :
    clipLoB lo (xs.map (clampV (clipLoB lo xs) (clipHiB hi xs))) = clipLoB lo xs := by
  have hn : 0 < xs.length := List.length_pos.mpr hne
  have hLF : lowCut lo xs.length + (hi * (xs.length : ℚ)).floor.toNat < xs.length :=
    cuts_lt h0 h1 hs hn
  have hab := clip_bounds_le lo hi xs h0 h1 hs hne
  rw [clipLoB_map lo _ _ xs (by omega)]
  exact clampV_fixed_lo hab

theorem clipHiB_map_clamp (lo hi : ℚ) (xs : List (Option ℚ))
    (h0 : 0 ≤ lo) (h1 : 0 ≤ hi) (hs : lo + hi < 1) (hne : xs ≠ []) :
    clipHiB hi (xs.map (clampV (clipLoB lo xs) (clipHiB hi xs))) = clipHiB hi xs := by
  have hn : 0 < xs.length := List.length_pos.mpr hne
  have hLF : lowCut lo xs.length + (hi * (xs.length : ℚ)).floor.toNat < xs.length :=
    cuts_lt h0 h1 hs hn
  have hab := clip_bounds_le lo hi xs h0 h1 hs hne
  rw [clipHiB_map hi _ _ xs (by unfold highCut; omega)]
  exact clampV_fixed_hi hab

theorem winsorize1D_idem (lo hi : ℚ) (xs ys zs : List (Option ℚ))
    (h0 : 0 ≤ lo) (h1 : 0 ≤ hi) (hs : lo + hi < 1)
    (hxy : winsorize1D lo hi xs = .ok ys) (hyz : winsorize1D lo hi ys = .ok zs) :
    zs = ys := by
  have hne := winsorize1D_ok_ne_nil hxy
  have hy := winsorize1D_ok_clamp lo hi xs h0 h1 hs hne
  rw [hxy] at hy
  have hys : ys = xs.map (clampV (clipLoB lo xs) (clipHiB hi xs)) := Except.ok.inj hy
  have hne2 := winsorize1D_ok_ne_nil hyz
  have hz := winsorize1D_ok_clamp lo hi ys h0 h1 hs hne2
  rw [hyz] at hz
  have hzs : zs = ys.map (clampV (clipLoB lo ys) (clipHiB hi ys)) := Except.ok.inj hz
  have hab := clip_bounds_le lo hi xs h0 h1 hs hne
  rw [hzs, hys, clipLoB_map_clamp lo hi xs h0 h1 hs hne,
    clipHiB_map_clamp lo hi xs h0 h1 hs hne, List.map_map]
  apply List.map_congr_left
  intro x _
  exact clampV_idem hab

/-! ### Table-level facts about `winsorize_outliers` -/

theorem winsorizeCols_ok_length {lo hi : ℚ} {cs ds : List (String × List (Option ℚ))}
    (h : winsorizeCols lo hi cs = .ok ds) : ds.length = cs.length := by
  induction cs generalizing ds with
  | nil =>
    simp only [winsorizeCols] at h
    rw [← Except.ok.inj h]
  | cons c cs ih =>
    simp only [winsorizeCols] at h
    split at h
    · exact absurd h (by simp)
    split at h
    · exact absurd h (by simp)
    next rest hr =>
      rw [← Except.ok.inj h, List.length_cons, List.length_cons, ih hr]

theorem winsorizeCols_ok_get {lo hi : ℚ} {cs ds : List (String × List (Option ℚ))}
    (h : winsorizeCols lo hi cs = .ok ds) {i : ℕ} (hilt : i < cs.length) :
    (ds.getD i ("", [])).1 = (cs.getD i ("", [])).1 ∧
      winsorize1D lo hi (cs.getD i ("", [])).2 = .ok ((ds.getD i ("", [])).2) := by
  induction cs generalizing ds i with
  | nil => exact absurd hilt (by simp)
  | cons c cs ih =>
    simp only [winsorizeCols] at h
    split at h
    · exact absurd h (by simp)
    next w hw =>
      split at h
      · exact absurd h (by simp)
      next rest hr =>
        rw [← Except.ok.inj h]
        cases i with
        | zero => exact ⟨rfl, hw⟩
        | succ n =>
          have hn : n < cs.length := by
            rw [List.length_cons] at hilt
            omega
          simpa using ih hr hn

theorem winsorize_outliers_ok_parts {lo hi : ℚ} {t u : Table}
    (h : winsorize_outliers lo hi t = .ok u) :
    u.dates = t.dates ∧ winsorizeCols lo hi t.cols = .ok u.cols := by
  unfold winsorize_outliers at h
  split at h
  · exact absurd h (by simp)
  next cs hcs =>
    have := Except.ok.inj h
    rw [← this]
    exact ⟨rfl, hcs⟩

/-! ### Segmentation pipeline facts -/

theorem maskFilter_map_filter {α : Type} (p : α → Bool) (xs : List α) :
    maskFilter (xs.map p) xs = xs.filter p := by
  induction xs with
  | nil => rfl
  | cons x xs ih =>
    cases hx : p x <;> simp [maskFilter, hx, ih, List.filter_cons]

theorem window_dates (s e : ℤ) (t : Table) :
    (window s e t).dates = t.dates.filter (datePred s e) :=
  maskFilter_map_filter (datePred s e) t.dates

theorem window_dates_sublist (s e : ℤ) (t : Table) :
    ((window s e t).dates).Sublist t.dates := by
  rw [window_dates]
  exact List.filter_sublist t.dates

theorem datePred_iff (s e d : ℤ) : datePred s e d = true ↔ s ≤ d ∧ d < e := by
  simp [datePred]

theorem mem_window_dates_iff (s e : ℤ) (t : Table) (d : ℤ) :
    d ∈ (window s e t).dates ↔ d ∈ t.dates ∧ s ≤ d ∧ d < e := by
  rw [window_dates, List.mem_filter, datePred_iff]

theorem concatTables_dates (ts : List Table) :
    (concatTables ts).dates = (ts.map Table.dates).flatten := by
  induction ts with
  | nil => rfl
  | cons t ts ih =>
    cases ts with
    | nil => simp [concatTables]
    | cons t2 ts2 =>
      show (appendTables t (concatTables (t2 :: ts2))).dates = _
      simp [appendTables, ih]

theorem clipParts_ok_dates {lo hi : ℚ} {t : Table} {bs : List (ℤ × ℤ)} {ps : List Table}
    (h : clipParts lo hi t bs = .ok ps) :
    ps.map Table.dates = bs.map (fun b => (window b.1 b.2 t).dates) := by
  induction bs generalizing ps with
  | nil =>
    simp only [clipParts] at h
    rw [← Except.ok.inj h]
    rfl
  | cons b bs ih =>
    simp only [clipParts] at h
    split at h
    · exact absurd h (by simp)
    next p hp =>
      split at h
      · exact absurd h (by simp)
      next rest hr =>
        rw [← Except.ok.inj h, List.map_cons, List.map_cons,
          (winsorize_outliers_ok_parts hp).1, ih hr]

theorem segmentAndClip_ok_dates {lo hi : ℚ} {bs : List (ℤ × ℤ)} {t out : Table}
    (h : segmentAndClip lo hi bs t = .ok out) :
    out.dates = (bs.map (fun b => (window b.1 b.2 t).dates)).flatten := by
  unfold segmentAndClip at h
  split at h
  · exact absurd h (by simp)
  next ps hps =>
    rw [← Except.ok.inj h, concatTables_dates, clipParts_ok_dates hps]

/-! ### Last helpers for the claim theorems -/

theorem clampV_none (a b : Option ℚ) : clampV a b none = b := by
  unfold clampV vmax vmin
  cases a <;> cases b <;> simp [vle]

theorem clampV_eq_ite {a b : Option ℚ} (hab : vle a b = true) (x : Option ℚ) :
    clampV a b x = if vle a x = false then a
      else if vle x b = false then b else x := by
  by_cases h1 : vle a x = true
  · rw [if_neg (by simp [h1])]
    by_cases h2 : vle x b = true
    · rw [if_neg (by simp [h2])]
      exact clampV_of_between h1 h2
    · rw [if_pos (by simp [h2])]
      rcases vle_total x b with h3 | h3
      · exact absurd h3 h2
      · exact clampV_of_hi_le hab h3
  · rw [if_pos (by simp [h1])]
    rcases vle_total a x with h3 | h3
    · exact absurd h3 h1
    · exact clampV_of_le_lo hab h3

theorem clampV_mem_cases (a b x : Option ℚ) :
    clampV a b x = x ∨ clampV a b x = a ∨ clampV a b x = b := by
  unfold clampV vmax vmin
  by_cases h1 : vle x a = true
  · rw [if_pos h1]
    by_cases h2 : vle a b = true
    · rw [if_pos h2]; right; left; rfl
    · rw [if_neg h2]; right; right; rfl
  · rw [if_neg h1]
    by_cases h2 : vle x b = true
    · rw [if_pos h2]; left; rfl
    · rw [if_neg h2]; right; right; rfl

theorem clipLoB_mem (lo hi : ℚ) (xs : List (Option ℚ))
    (h0 : 0 ≤ lo) (h1 : 0 ≤ hi) (hs : lo + hi < 1) (hne : xs ≠ []) :
    clipLoB lo xs ∈ xs := by
  have hn : 0 < xs.length := List.length_pos.mpr hne
  have hLF : lowCut lo xs.length + (hi * (xs.length : ℚ)).floor.toNat < xs.length :=
    cuts_lt h0 h1 hs hn
  have hL : lowCut lo xs.length < (sortVals xs).length := by
    rw [sortVals_length]; omega
  have : clipLoB lo xs ∈ sortVals xs := by
    unfold clipLoB
    rw [List.getD_eq_getElem _ _ hL]
    exact List.getElem_mem hL
  exact (sortVals_perm xs).mem_iff.mp this

theorem clipHiB_mem (lo hi : ℚ) (xs : List (Option ℚ))
    (h0 : 0 ≤ lo) (h1 : 0 ≤ hi) (hs : lo + hi < 1) (hne : xs ≠ []) :
    clipHiB hi xs ∈ xs := by
  have hn : 0 < xs.length := List.length_pos.mpr hne
  have hLF : lowCut lo xs.length + (hi * (xs.length : ℚ)).floor.toNat < xs.length :=
    cuts_lt h0 h1 hs hn
  have hU : highCut hi xs.length - 1 < (sortVals xs).length := by
    rw [sortVals_length]
    unfold highCut
    omega
  have : clipHiB hi xs ∈ sortVals xs := by
    unfold clipHiB
    rw [List.getD_eq_getElem _ _ hU]
    exact List.getElem_mem hU
  exact (sortVals_perm xs).mem_iff.mp this

theorem winsorizeCols_ok_names {lo hi : ℚ} {cs ds : List (String × List (Option ℚ))}
    (h : winsorizeCols lo hi cs = .ok ds) : ds.map Prod.fst = cs.map Prod.fst := by
  induction cs generalizing ds with
  | nil =>
    simp only [winsorizeCols] at h
    rw [← Except.ok.inj h]
  | cons c cs ih =>
    simp only [winsorizeCols] at h
    split at h
    · exact absurd h (by simp)
    split at h
    · exact absurd h (by simp)
    next rest hr =>
      rw [← Except.ok.inj h, List.map_cons, List.map_cons, ih hr]

theorem winsorizeCols_idem {lo hi : ℚ} (h0 : 0 ≤ lo) (h1 : 0 ≤ hi) (hs : lo + hi < 1)
    {cs ds es : List (String × List (Option ℚ))}
    (ha : winsorizeCols lo hi cs = .ok ds) (hb : winsorizeCols lo hi ds = .ok es) :
    es = ds := by
  induction cs generalizing ds es with
  | nil =>
    simp only [winsorizeCols] at ha
    rw [← Except.ok.inj ha] at hb
    simp only [winsorizeCols] at hb
    rw [← Except.ok.inj hb, ← Except.ok.inj ha]
  | cons c cs ih =>
    simp only [winsorizeCols] at ha
    split at ha
    · exact absurd ha (by simp)
    next w hw =>
      split at ha
      · exact absurd ha (by simp)
      next rest hr =>
        rw [← Except.ok.inj ha] at hb
        simp only [winsorizeCols] at hb
        split at hb
        · exact absurd hb (by simp)
        next w2 hw2 =>
          split at hb
          · exact absurd hb (by simp)
          next rest2 hr2 =>
            rw [← Except.ok.inj hb, ← Except.ok.inj ha]
            have he1 : w2 = w := winsorize1D_idem lo hi c.2 w w2 h0 h1 hs hw hw2
            have he2 : rest2 = rest := ih hr hr2
            rw [he1, he2]

/-! ### The claims -/

/-- C1: for every partition (date window of a table) and every numeric target
column, after `winsorize_outliers` every present value `v` of that column lies
between the clip bounds `clipLoB`/`clipHiB` computed from that same column's
pre-clip values in that partition (bounds are per-partition, not global). -/
theorem C1_partition_bounds_invariant (lo hi : ℚ) (s e : ℤ) (t out : Table)
    (h0 : 0 ≤ lo) (h1 : 0 ≤ hi) (hs : lo + hi < 1)
    (h : winsorize_outliers lo hi (window s e t) = .ok out)
    (i : ℕ) (hilt : i < (window s e t).cols.length) (v : ℚ)
    (hv : some v ∈ (out.cols.getD i ("", [])).2) :
    vle (clipLoB lo ((window s e t).cols.getD i ("", [])).2) (some v) = true ∧
      vle (some v) (clipHiB hi ((window s e t).cols.getD i ("", [])).2) = true := by
  obtain ⟨hdates, hcols⟩ := winsorize_outliers_ok_parts h
  obtain ⟨hname, hcol⟩ := winsorizeCols_ok_get hcols hilt
  have hne := winsorize1D_ok_ne_nil hcol
  have hclamp := winsorize1D_ok_clamp lo hi _ h0 h1 hs hne
  rw [hcol] at hclamp
  have hout := (Except.ok.inj hclamp).symm
  rw [← hout] at hv
  obtain ⟨x, hxmem, hxeq⟩ := List.mem_map.mp hv
  have hab := clip_bounds_le lo hi _ h0 h1 hs hne
  rw [← hxeq]
  exact ⟨vle_clampV_left hab, vle_clampV_right _ _ _⟩

unseal Rat.add Rat.mul Rat.inv Rat.sub in
/-- Witness for C1 at a ten-row window with limits `(0.1, 0.1)`. -/
theorem C1_witness :
    (0 : ℚ) ≤ 1/10 ∧ (1/10 : ℚ) + 1/10 < 1 ∧
    winsorize_outliers (1/10) (1/10)
      (window 0 100 ⟨[1, 2, 3, 4, 5, 6, 7, 8, 9, 10],
        [("x", [some 1, some 2, some 3, some 4, some 5,
                some 6, some 7, some 8, some 9, some 10])]⟩)
      = .ok ⟨[1, 2, 3, 4, 5, 6, 7, 8, 9, 10],
          [("x", [some 2, some 2, some 3, some 4, some 5,
                  some 6, some 7, some 8, some 9, some 9])]⟩ ∧
    (vle (clipLoB (1/10)
        ((window 0 100 (⟨[1, 2, 3, 4, 5, 6, 7, 8, 9, 10],
          [("x", [some 1, some 2, some 3, some 4, some 5,
                  some 6, some 7, some 8, some 9, some 10])]⟩ : Table)).cols.getD
            0 ("", [])).2) (some 2) = true ∧
      vle (some 2) (clipHiB (1/10)
        ((window 0 100 (⟨[1, 2, 3, 4, 5, 6, 7, 8, 9, 10],
          [("x", [some 1, some 2, some 3, some 4, some 5,
                  some 6, some 7, some 8, some 9, some 10])]⟩ : Table)).cols.getD
            0 ("", [])).2) = true) :=
  ⟨by norm_num, by norm_num, by decide,
    C1_partition_bounds_invariant (1/10) (1/10) 0 100
      ⟨[1, 2, 3, 4, 5, 6, 7, 8, 9, 10],
        [("x", [some 1, some 2, some 3, some 4, some 5,
                some 6, some 7, some 8, some 9, some 10])]⟩
      ⟨[1, 2, 3, 4, 5, 6, 7, 8, 9, 10],
        [("x", [some 2, some 2, some 3, some 4, some 5,
                some 6, some 7, some 8, some 9, some 9])]⟩
      (by norm_num) (by norm_num) (by norm_num) (by decide) 0 (by decide) 2 (by decide)⟩

unseal Rat.add Rat.mul Rat.inv Rat.sub in
/-- C2 as stated is false: the code does not clip at linearly interpolated
quantiles.  On the column `[0, 20, 21, ..., 28]` with limits `(0.05, 0.05)`
the code is the identity (the cut index `int(0.05 * 10)` is `0`), while the
spec's interpolated quantile `qLo = 9` would replace the leading `0`. -/
theorem C2_counterexample :
    winsorize1D (1/20) (1/20)
      [some 0, some 20, some 21, some 22, some 23,
       some 24, some 25, some 26, some 27, some 28]
      = .ok [some 0, some 20, some 21, some 22, some 23,
             some 24, some 25, some 26, some 27, some 28] ∧
    specWinsorize (1/20) (1/20)
      [some 0, some 20, some 21, some 22, some 23,
       some 24, some 25, some 26, some 27, some 28]
      ≠ [some 0, some 20, some 21, some 22, some 23,
         some 24, some 25, some 26, some 27, some 28] := by
  constructor
  · decide
  · decide

/-- C2 (amended): `winsorize1D` computes `qLo` as the order statistic at
index `int(lowerFrac * n)` and `qHi` as the order statistic at index
`n - int(upperFrac * n) - 1` of the column sorted with missing values last
(no interpolation), then replaces every value strictly below `qLo` by `qLo`
and every value strictly above `qHi` by `qHi`, leaving the rest unchanged. -/
theorem C2_order_statistic_clipping (lo hi : ℚ) (xs ys : List (Option ℚ))
    (h0 : 0 ≤ lo) (h1 : 0 ≤ hi) (hs : lo + hi < 1)
    (h : winsorize1D lo hi xs = .ok ys) :
    ys = xs.map (fun x => if vle (clipLoB lo xs) x = false then clipLoB lo xs
      else if vle x (clipHiB hi xs) = false then clipHiB hi xs else x) := by
  have hne := winsorize1D_ok_ne_nil h
  have hclamp := winsorize1D_ok_clamp lo hi xs h0 h1 hs hne
  rw [h] at hclamp
  have hys := Except.ok.inj hclamp
  rw [hys]
  apply List.map_congr_left
  intro x _
  exact clampV_eq_ite (clip_bounds_le lo hi xs h0 h1 hs hne) x

unseal Rat.add Rat.mul Rat.inv Rat.sub in
/-- Witness for C2 (amended) on `[1, ..., 10]` with limits `(0.1, 0.1)`. -/
theorem C2_witness :
    (0 : ℚ) ≤ 1/10 ∧ (1/10 : ℚ) + 1/10 < 1 ∧
    winsorize1D (1/10) (1/10)
      [some 1, some 2, some 3, some 4, some 5,
       some 6, some 7, some 8, some 9, some 10]
      = .ok [some 2, some 2, some 3, some 4, some 5,
             some 6, some 7, some 8, some 9, some 9] ∧
    [some 2, some 2, some 3, some 4, some 5,
     some 6, some 7, some 8, some 9, (some 9 : Option ℚ)] =
      ([some 1, some 2, some 3, some 4, some 5,
        some 6, some 7, some 8, some 9, some 10] : List (Option ℚ)).map
        (fun x => if vle (clipLoB (1/10)
            [some 1, some 2, some 3, some 4, some 5,
             some 6, some 7, some 8, some 9, some 10]) x = false
          then clipLoB (1/10)
            [some 1, some 2, some 3, some 4, some 5,
             some 6, some 7, some 8, some 9, some 10]
          else if vle x (clipHiB (1/10)
            [some 1, some 2, some 3, some 4, some 5,
             some 6, some 7, some 8, some 9, some 10]) = false
          then clipHiB (1/10)
            [some 1, some 2, some 3, some 4, some 5,
             some 6, some 7, some 8, some 9, some 10]
          else x) :=
  ⟨by norm_num, by norm_num, by decide,
    C2_order_statistic_clipping (1/10) (1/10)
      [some 1, some 2, some 3, some 4, some 5,
       some 6, some 7, some 8, some 9, some 10]
      [some 2, some 2, some 3, some 4, some 5,
       some 6, some 7, some 8, some 9, some 9]
      (by norm_num) (by norm_num) (by norm_num) (by decide)⟩

unseal Rat.add Rat.mul Rat.inv Rat.sub in
/-- C3 as stated is false: with the defaults the notebook uses
(`nan_policy='propagate'`), a missing value sorts above every number and is
overwritten by the upper fence.  On nineteen present values `1..19` plus one
missing value, limits `(0.05, 0.05)`, the missing entry at position 19 comes
back as `19`. -/
theorem C3_counterexample :
    winsorize1D (1/20) (1/20)
      [some 1, some 2, some 3, some 4, some 5, some 6, some 7, some 8, some 9,
       some 10, some 11, some 12, some 13, some 14, some 15, some 16, some 17,
       some 18, some 19, none]
      = .ok [some 2, some 2, some 3, some 4, some 5, some 6, some 7, some 8,
             some 9, some 10, some 11, some 12, some 13, some 14, some 15,
             some 16, some 17, some 18, some 19, some 19] ∧
    ([some 1, some 2, some 3, some 4, some 5, some 6, some 7, some 8, some 9,
      some 10, some 11, some 12, some 13, some 14, some 15, some 16, some 17,
      some 18, some 19, (none : Option ℚ)].getD 19 none = none) ∧
    ([some 2, some 2, some 3, some 4, some 5, some 6, some 7, some 8, some 9,
      some 10, some 11, some 12, some 13, some 14, some 15, some 16, some 17,
      some 18, some 19, (some 19 : Option ℚ)].getD 19 none = some 19) := by
  refine ⟨by decide, by decide, by decide⟩

/-- C3 (amended): `winsorize1D` does not leave missing values untouched.
Missing values sort above all present values, and every missing entry comes
back as the upper clip bound `clipHiB` — a present number whenever at most
`int(upperFrac * n)` entries are missing, and missing (hence unchanged) only
when the bound itself is missing. -/
theorem C3_missing_replaced_by_upper_bound (lo hi : ℚ) (xs ys : List (Option ℚ))
    (h0 : 0 ≤ lo) (h1 : 0 ≤ hi) (hs : lo + hi < 1)
    (h : winsorize1D lo hi xs = .ok ys) (p : ℕ) (hp : p < xs.length)
    (hmiss : xs.getD p none = none) :
    ys.getD p none = clipHiB hi xs := by
  have hne := winsorize1D_ok_ne_nil h
  have hclamp := winsorize1D_ok_clamp lo hi xs h0 h1 hs hne
  rw [h] at hclamp
  have hys := Except.ok.inj hclamp
  rw [hys]
  rw [List.getD_eq_getElem _ none (by rw [List.length_map]; exact hp), List.getElem_map,
    ← List.getD_eq_getElem xs none hp, hmiss, clampV_none]

unseal Rat.add Rat.mul Rat.inv Rat.sub in
/-- Witness for C3 (amended) at the same twenty-entry column. -/
theorem C3_witness :
    (0 : ℚ) ≤ 1/20 ∧ (1/20 : ℚ) + 1/20 < 1 ∧
    winsorize1D (1/20) (1/20)
      [some 1, some 2, some 3, some 4, some 5, some 6, some 7, some 8, some 9,
       some 10, some 11, some 12, some 13, some 14, some 15, some 16, some 17,
       some 18, some 19, none]
      = .ok [some 2, some 2, some 3, some 4, some 5, some 6, some 7, some 8,
             some 9, some 10, some 11, some 12, some 13, some 14, some 15,
             some 16, some 17, some 18, some 19, some 19] ∧
    ([some 2, some 2, some 3, some 4, some 5, some 6, some 7, some 8,
      some 9, some 10, some 11, some 12, some 13, some 14, some 15,
      some 16, some 17, some 18, some 19, (some 19 : Option ℚ)].getD 19 none
      = clipHiB (1/20)
        [some 1, some 2, some 3, some 4, some 5, some 6, some 7, some 8, some 9,
         some 10, some 11, some 12, some 13, some 14, some 15, some 16, some 17,
         some 18, some 19, none]) :=
  ⟨by norm_num, by norm_num, by decide,
    C3_missing_replaced_by_upper_bound (1/20) (1/20)
      [some 1, some 2, some 3, some 4, some 5, some 6, some 7, some 8, some 9,
       some 10, some 11, some 12, some 13, some 14, some 15, some 16, some 17,
       some 18, some 19, none]
      [some 2, some 2, some 3, some 4, some 5, some 6, some 7, some 8,
       some 9, some 10, some 11, some 12, some 13, some 14, some 15,
       some 16, some 17, some 18, some 19, some 19]
      (by norm_num) (by norm_num) (by norm_num) (by decide) 19 (by decide) (by decide)⟩

unseal Rat.add Rat.mul Rat.inv Rat.sub in
/-- C4 as stated is false: `lowerFrac = upperFrac = 0.6` does not raise.
scipy only validates each limit against `[0, 1]`; with both limits `0.6` the
ten-value column collapses to the order statistic at index `6` and a table is
returned. -/
theorem C4_counterexample :
    (1 : ℚ) ≤ 3/5 + 3/5 ∧
    winsorize_outliers (3/5) (3/5)
      ⟨[1, 2, 3, 4, 5, 6, 7, 8, 9, 10],
        [("x", [some 1, some 2, some 3, some 4, some 5,
                some 6, some 7, some 8, some 9, some 10])]⟩
      = .ok ⟨[1, 2, 3, 4, 5, 6, 7, 8, 9, 10],
          [("x", [some 7, some 7, some 7, some 7, some 7,
                  some 7, some 7, some 7, some 7, some 7])]⟩ :=
  ⟨by norm_num, by decide⟩

/-- C4 (amended): the only fraction validation in the code is per limit
against `[0, 1]`: a negative fraction (or one above one) makes `winsorize1D`
fail with an error, while `lowerFrac + upperFrac ≥ 1` with both fractions in
`[0, 1]` is accepted. -/
theorem C4_limit_validation (lo hi : ℚ) (xs : List (Option ℚ))
    (h : lo < 0 ∨ 1 < lo ∨ hi < 0 ∨ 1 < hi) :
    ∃ e, winsorize1D lo hi xs = .error e :=
  winsorize1D_error_of_bad_limits xs h

/-- Witness for C4 (amended) at a negative lower fraction. -/
theorem C4_witness :
    ((-1/20 : ℚ) < 0 ∨ 1 < (-1/20 : ℚ) ∨ (1/20 : ℚ) < 0 ∨ 1 < (1/20 : ℚ)) ∧
    ∃ e, winsorize1D (-1/20) (1/20) [some 1] = .error e :=
  ⟨by norm_num,
    C4_limit_validation (-1/20) (1/20) [some 1] (by norm_num)⟩

/-- C5: the pipeline's output row count is the sum of the per-window
partition row counts, and every output row's date lies in one of the supplied
windows — a row dated outside all windows appears nowhere in the output
(dropped silently, not an error), so the output may be shorter than the
input. -/
theorem C5_row_count_law (lo hi : ℚ) (bs : List (ℤ × ℤ)) (t out : Table)
    (h : segmentAndClip lo hi bs t = .ok out) :
    out.dates.length = (bs.map (fun b => (window b.1 b.2 t).dates.length)).sum ∧
    ∀ d ∈ out.dates, ∃ b ∈ bs, b.1 ≤ d ∧ d < b.2 := by
  have hd := segmentAndClip_ok_dates h
  constructor
  · rw [hd, List.length_flatten, List.map_map]
    rfl
  · intro d hdm
    rw [hd] at hdm
    obtain ⟨l, hl, hdl⟩ := List.mem_flatten.mp hdm
    obtain ⟨b, hb, rfl⟩ := List.mem_map.mp hl
    have hw := (mem_window_dates_iff b.1 b.2 t d).mp hdl
    exact ⟨b, hb, hw.2⟩

unseal Rat.add Rat.mul Rat.inv Rat.sub in
/-- Witness for C5 at the spec's own example: rows dated 2020-03-15,
2020-03-25, 2025-01-01 against two windows; the third row is dropped and the
output is strictly shorter than the input. -/
theorem C5_witness :
    segmentAndClip (1/20) (1/20) [(20200301, 20200322), (20200322, 20210608)]
      ⟨[20200315, 20200325, 20250101], [("r", [some 1, some 2, some 3])]⟩
      = .ok ⟨[20200315, 20200325], [("r", [some 1, some 2])]⟩ ∧
    ((⟨[20200315, 20200325], [("r", [some 1, some 2])]⟩ : Table).dates.length =
      ([(20200301, 20200322), (20200322, 20210608)].map
        (fun b => (window b.1 b.2
          (⟨[20200315, 20200325, 20250101],
            [("r", [some 1, some 2, some 3])]⟩ : Table)).dates.length)).sum ∧
     ∀ d ∈ (⟨[20200315, 20200325], [("r", [some 1, some 2])]⟩ : Table).dates,
       ∃ b ∈ [((20200301 : ℤ), (20200322 : ℤ)), (20200322, 20210608)],
         b.1 ≤ d ∧ d < b.2) ∧
    (⟨[20200315, 20200325], [("r", [some 1, some 2])]⟩ : Table).dates.length <
      (⟨[20200315, 20200325, 20250101],
        [("r", [some 1, some 2, some 3])]⟩ : Table).dates.length :=
  ⟨by decide,
    C5_row_count_law (1/20) (1/20) [(20200301, 20200322), (20200322, 20210608)]
      ⟨[20200315, 20200325, 20250101], [("r", [some 1, some 2, some 3])]⟩
      ⟨[20200315, 20200325], [("r", [some 1, some 2])]⟩ (by decide),
    by decide⟩

/-- C6: within each partition the output keeps the input's relative row
order (each window's date list is a sublist of the input's), and the
concatenated output lists the partitions exactly in the order the boundary
windows were supplied. -/
theorem C6_order_preservation (lo hi : ℚ) (bs : List (ℤ × ℤ)) (t out : Table)
    (h : segmentAndClip lo hi bs t = .ok out) :
    out.dates = (bs.map (fun b => (window b.1 b.2 t).dates)).flatten ∧
    ∀ b ∈ bs, ((window b.1 b.2 t).dates).Sublist t.dates :=
  ⟨segmentAndClip_ok_dates h, fun b _ => window_dates_sublist b.1 b.2 t⟩

unseal Rat.add Rat.mul Rat.inv Rat.sub in
/-- Witness for C6 with the two windows supplied in reverse chronological
order: the output lists the later window's rows first. -/
theorem C6_witness :
    segmentAndClip (1/20) (1/20) [(20200322, 20210608), (20200301, 20200322)]
      ⟨[20200315, 20200325, 20250101], [("r", [some 1, some 2, some 3])]⟩
      = .ok ⟨[20200325, 20200315], [("r", [some 2, some 1])]⟩ ∧
    ((⟨[20200325, 20200315], [("r", [some 2, some 1])]⟩ : Table).dates =
      ([(20200322, 20210608), (20200301, 20200322)].map
        (fun b => (window b.1 b.2
          (⟨[20200315, 20200325, 20250101],
            [("r", [some 1, some 2, some 3])]⟩ : Table)).dates)).flatten ∧
     ∀ b ∈ [((20200322 : ℤ), (20210608 : ℤ)), (20200301, 20200322)],
       ((window b.1 b.2 (⟨[20200315, 20200325, 20250101],
          [("r", [some 1, some 2, some 3])]⟩ : Table)).dates).Sublist
         [20200315, 20200325, 20250101]) :=
  ⟨by decide,
    C6_order_preservation (1/20) (1/20) [(20200322, 20210608), (20200301, 20200322)]
      ⟨[20200315, 20200325, 20250101], [("r", [some 1, some 2, some 3])]⟩
      ⟨[20200325, 20200315], [("r", [some 2, some 1])]⟩ (by decide)⟩

/-- C7: a boundary pair selects exactly the rows with
`start <= Date < end`, preserving the input's row order; a row dated exactly
`start` is kept (when the window is nonempty) and a row dated exactly `end`
is never kept. -/
theorem C7_half_open_selection (s e : ℤ) (t : Table) :
    (window s e t).dates = t.dates.filter (datePred s e) ∧
    ((window s e t).dates).Sublist t.dates ∧
    (∀ d, d ∈ (window s e t).dates ↔ d ∈ t.dates ∧ s ≤ d ∧ d < e) ∧
    (s ∈ t.dates → s < e → s ∈ (window s e t).dates) ∧
    e ∉ (window s e t).dates := by
  refine ⟨window_dates s e t, window_dates_sublist s e t, mem_window_dates_iff s e t, ?_, ?_⟩
  · intro hmem hlt
    exact (mem_window_dates_iff s e t s).mpr ⟨hmem, le_refl s, hlt⟩
  · intro hmem
    have hw := (mem_window_dates_iff s e t e).mp hmem
    exact absurd hw.2.2 (lt_irrefl e)

/-- Witness for C7 at a concrete window `[5, 10)` over dates
`[3, 5, 9, 10, 12]`: `5` (the start) is kept, `10` (the end) is not. -/
theorem C7_witness :
    (window 5 10 ⟨[3, 5, 9, 10, 12], [("r", [some 1, some 2, some 3, some 4, some 5])]⟩).dates
      = ([3, 5, 9, 10, 12] : List ℤ).filter (datePred 5 10) ∧
    ((window 5 10 (⟨[3, 5, 9, 10, 12],
        [("r", [some 1, some 2, some 3, some 4, some 5])]⟩ : Table)).dates).Sublist
      [3, 5, 9, 10, 12] ∧
    (∀ d, d ∈ (window 5 10 (⟨[3, 5, 9, 10, 12],
        [("r", [some 1, some 2, some 3, some 4, some 5])]⟩ : Table)).dates
      ↔ d ∈ ([3, 5, 9, 10, 12] : List ℤ) ∧ 5 ≤ d ∧ d < 10) ∧
    ((5 : ℤ) ∈ ([3, 5, 9, 10, 12] : List ℤ) → (5 : ℤ) < 10 →
      (5 : ℤ) ∈ (window 5 10 (⟨[3, 5, 9, 10, 12],
        [("r", [some 1, some 2, some 3, some 4, some 5])]⟩ : Table)).dates) ∧
    (10 : ℤ) ∉ (window 5 10 (⟨[3, 5, 9, 10, 12],
      [("r", [some 1, some 2, some 3, some 4, some 5])]⟩ : Table)).dates :=
  C7_half_open_selection 5 10 ⟨[3, 5, 9, 10, 12], [("r", [some 1, some 2, some 3, some 4, some 5])]⟩

/-- C8: `winsorize_outliers` returns the same table with only the numeric
columns modified: the `Date` column is untouched, the column names are
unchanged, and every column keeps its row count (rows are positional, so row
order is preserved). -/
theorem C8_frame_effect (lo hi : ℚ) (t u : Table)
    (h : winsorize_outliers lo hi t = .ok u) :
    u.dates = t.dates ∧
    u.cols.map Prod.fst = t.cols.map Prod.fst ∧
    u.cols.length = t.cols.length ∧
    ∀ i < t.cols.length,
      (u.cols.getD i ("", [])).2.length = (t.cols.getD i ("", [])).2.length := by
  obtain ⟨hdates, hcols⟩ := winsorize_outliers_ok_parts h
  refine ⟨hdates, winsorizeCols_ok_names hcols, winsorizeCols_ok_length hcols, ?_⟩
  intro i hilt
  exact winsorize1D_ok_length (winsorizeCols_ok_get hcols hilt).2

unseal Rat.add Rat.mul Rat.inv Rat.sub in
/-- Witness for C8 on a ten-row, one-column table with limits `(0.1, 0.1)`. -/
theorem C8_witness :
    winsorize_outliers (1/10) (1/10)
      ⟨[1, 2, 3, 4, 5, 6, 7, 8, 9, 10],
        [("x", [some 1, some 2, some 3, some 4, some 5,
                some 6, some 7, some 8, some 9, some 10])]⟩
      = .ok ⟨[1, 2, 3, 4, 5, 6, 7, 8, 9, 10],
          [("x", [some 2, some 2, some 3, some 4, some 5,
                  some 6, some 7, some 8, some 9, some 9])]⟩ ∧
    ((⟨[1, 2, 3, 4, 5, 6, 7, 8, 9, 10],
        [("x", [some 2, some 2, some 3, some 4, some 5,
                some 6, some 7, some 8, some 9, some 9])]⟩ : Table).dates
        = [1, 2, 3, 4, 5, 6, 7, 8, 9, 10] ∧
     (⟨[1, 2, 3, 4, 5, 6, 7, 8, 9, 10],
        [("x", [some 2, some 2, some 3, some 4, some 5,
                some 6, some 7, some 8, some 9, some 9])]⟩ : Table).cols.map Prod.fst
        = ["x"]) :=
  ⟨by decide,
    by
      have hw := C8_frame_effect (1/10) (1/10)
        ⟨[1, 2, 3, 4, 5, 6, 7, 8, 9, 10],
          [("x", [some 1, some 2, some 3, some 4, some 5,
                  some 6, some 7, some 8, some 9, some 10])]⟩
        ⟨[1, 2, 3, 4, 5, 6, 7, 8, 9, 10],
          [("x", [some 2, some 2, some 3, some 4, some 5,
                  some 6, some 7, some 8, some 9, some 9])]⟩
        (by decide)
      exact ⟨hw.1, hw.2.1⟩⟩

/-- C9: winsorization is idempotent on the values: applying
`winsorize_outliers` a second time with the same fractions returns the
once-clipped table unchanged. -/
theorem C9_idempotence (lo hi : ℚ) (t t1 t2 : Table)
    (h0 : 0 ≤ lo) (h1 : 0 ≤ hi) (hs : lo + hi < 1)
    (ha : winsorize_outliers lo hi t = .ok t1)
    (hb : winsorize_outliers lo hi t1 = .ok t2) :
    t2 = t1 := by
  obtain ⟨hd1, hc1⟩ := winsorize_outliers_ok_parts ha
  obtain ⟨hd2, hc2⟩ := winsorize_outliers_ok_parts hb
  have hcols : t2.cols = t1.cols := winsorizeCols_idem h0 h1 hs hc1 hc2
  cases t2 with
  | mk d2 c2 =>
    cases t1 with
    | mk d1 c1 =>
      simp only at hcols hd2
      rw [hcols, hd2]

unseal Rat.add Rat.mul Rat.inv Rat.sub in
/-- Witness for C9: clipping the ten-value table twice returns the
once-clipped table. -/
theorem C9_witness :
    (0 : ℚ) ≤ 1/10 ∧ (1/10 : ℚ) + 1/10 < 1 ∧
    winsorize_outliers (1/10) (1/10)
      ⟨[1, 2, 3, 4, 5, 6, 7, 8, 9, 10],
        [("x", [some 1, some 2, some 3, some 4, some 5,
                some 6, some 7, some 8, some 9, some 10])]⟩
      = .ok ⟨[1, 2, 3, 4, 5, 6, 7, 8, 9, 10],
          [("x", [some 2, some 2, some 3, some 4, some 5,
                  some 6, some 7, some 8, some 9, some 9])]⟩ ∧
    winsorize_outliers (1/10) (1/10)
      ⟨[1, 2, 3, 4, 5, 6, 7, 8, 9, 10],
        [("x", [some 2, some 2, some 3, some 4, some 5,
                some 6, some 7, some 8, some 9, some 9])]⟩
      = .ok ⟨[1, 2, 3, 4, 5, 6, 7, 8, 9, 10],
          [("x", [some 2, some 2, some 3, some 4, some 5,
                  some 6, some 7, some 8, some 9, some 9])]⟩ ∧
    (⟨[1, 2, 3, 4, 5, 6, 7, 8, 9, 10],
      [("x", [some 2, some 2, some 3, some 4, some 5,
              some 6, some 7, some 8, some 9, some 9])]⟩ : Table)
      = ⟨[1, 2, 3, 4, 5, 6, 7, 8, 9, 10],
          [("x", [some 2, some 2, some 3, some 4, some 5,
                  some 6, some 7, some 8, some 9, some 9])]⟩ :=
  ⟨by norm_num, by norm_num, by decide, by decide,
    C9_idempotence (1/10) (1/10)
      ⟨[1, 2, 3, 4, 5, 6, 7, 8, 9, 10],
        [("x", [some 1, some 2, some 3, some 4, some 5,
                some 6, some 7, some 8, some 9, some 10])]⟩
      ⟨[1, 2, 3, 4, 5, 6, 7, 8, 9, 10],
        [("x", [some 2, some 2, some 3, some 4, some 5,
                some 6, some 7, some 8, some 9, some 9])]⟩
      ⟨[1, 2, 3, 4, 5, 6, 7, 8, 9, 10],
        [("x", [some 2, some 2, some 3, some 4, some 5,
                some 6, some 7, some 8, some 9, some 9])]⟩
      (by norm_num) (by norm_num) (by norm_num) (by decide) (by decide)⟩

/-- C10: every value of a winsorized numeric column already occurred in that
column before clipping — clipped entries are replaced by an order statistic
actually present in the data, so clipping never invents a new value. -/
theorem C10_values_from_column (lo hi : ℚ) (t u : Table)
    (h0 : 0 ≤ lo) (h1 : 0 ≤ hi) (hs : lo + hi < 1)
    (h : winsorize_outliers lo hi t = .ok u)
    (i : ℕ) (hilt : i < t.cols.length) (x : Option ℚ)
    (hx : x ∈ (u.cols.getD i ("", [])).2) :
    x ∈ (t.cols.getD i ("", [])).2 := by
  obtain ⟨hdates, hcols⟩ := winsorize_outliers_ok_parts h
  obtain ⟨hname, hcol⟩ := winsorizeCols_ok_get hcols hilt
  have hne := winsorize1D_ok_ne_nil hcol
  have hclamp := winsorize1D_ok_clamp lo hi _ h0 h1 hs hne
  rw [hcol] at hclamp
  have hout := Except.ok.inj hclamp
  rw [hout] at hx
  obtain ⟨y, hymem, hyeq⟩ := List.mem_map.mp hx
  rcases clampV_mem_cases (clipLoB lo ((t.cols.getD i ("", [])).2))
      (clipHiB hi ((t.cols.getD i ("", [])).2)) y with hcc | hcc | hcc
  · rw [← hyeq, hcc]
    exact hymem
  · rw [← hyeq, hcc]
    exact clipLoB_mem lo hi _ h0 h1 hs hne
  · rw [← hyeq, hcc]
    exact clipHiB_mem lo hi _ h0 h1 hs hne

unseal Rat.add Rat.mul Rat.inv Rat.sub in
/-- Witness for C10: the clipped value `9` at the last position of the
output column already occurs in the input column. -/
theorem C10_witness :
    (0 : ℚ) ≤ 1/10 ∧ (1/10 : ℚ) + 1/10 < 1 ∧
    winsorize_outliers (1/10) (1/10)
      ⟨[1, 2, 3, 4, 5, 6, 7, 8, 9, 10],
        [("x", [some 1, some 2, some 3, some 4, some 5,
                some 6, some 7, some 8, some 9, some 10])]⟩
      = .ok ⟨[1, 2, 3, 4, 5, 6, 7, 8, 9, 10],
          [("x", [some 2, some 2, some 3, some 4, some 5,
                  some 6, some 7, some 8, some 9, some 9])]⟩ ∧
    some (9 : ℚ) ∈ (((⟨[1, 2, 3, 4, 5, 6, 7, 8, 9, 10],
        [("x", [some 1, some 2, some 3, some 4, some 5,
                some 6, some 7, some 8, some 9, some 10])]⟩ : Table)).cols.getD
          0 ("", [])).2 :=
  ⟨by norm_num, by norm_num, by decide,
    C10_values_from_column (1/10) (1/10)
      ⟨[1, 2, 3, 4, 5, 6, 7, 8, 9, 10],
        [("x", [some 1, some 2, some 3, some 4, some 5,
                some 6, some 7, some 8, some 9, some 10])]⟩
      ⟨[1, 2, 3, 4, 5, 6, 7, 8, 9, 10],
        [("x", [some 2, some 2, some 3, some 4, some 5,
                some 6, some 7, some 8, some 9, some 9])]⟩
      (by norm_num) (by norm_num) (by norm_num) (by decide) 0 (by decide)
      (some 9) (by decide)⟩

end MTA
